import Mathlib

/-!
Verification development for the Talk2Trade voice-to-catalog pipeline
(server routes: transcript normalisation, language detection, translation
post-processing, rule-based attribute extraction, in-memory product store).

JS strings are modelled as lists of characters.  The regex-based operations
of the source are modelled by bespoke matchers that follow the JS regex
semantics at the patterns actually used: leftmost scan, ordered alternation,
greedy repetition, dot not matching newline, case-insensitive flag realised
by lowercase comparison (all pattern literals are ASCII-lowercase or
caseless Indic script).
-/

namespace Talk2Trade

/-- JS strings modelled as lists of characters. -/
abbrev Str := List Char

/-- Character list of a Lean string literal. -/
def strL (s : String) : Str := s.data

/-- ASCII lowercasing: what toLowerCase and the regex i flag do on the
    ASCII letters occurring in the patterns; other characters unchanged. -/
def lcChar (c : Char) : Char :=
  if 'A' ≤ c ∧ c ≤ 'Z' then Char.ofNat (c.toNat + 32) else c

/-- Lowercase an entire string. -/
def lcs (s : Str) : Str := s.map lcChar

/-- Regex class backslash-d. -/
def isDigitCh (c : Char) : Bool := ('0' ≤ c) && (c ≤ '9')

/-- Regex class backslash-s (the whitespace characters relevant here). -/
def isSpaceCh (c : Char) : Bool :=
  (c == ' ') || (c == '\t') || (c == '\n') || (c == '\r') || (c == '\x0b') || (c == '\x0c')

/-- Regex class backslash-w. -/
def isWordCh (c : Char) : Bool :=
  (('a' ≤ c) && (c ≤ 'z')) || (('A' ≤ c) && (c ≤ 'Z')) || isDigitCh c || (c == '_')

/-- ASCII uppercasing of a single character (toUpperCase on word chars). -/
def ucChar (c : Char) : Char :=
  if 'a' ≤ c ∧ c ≤ 'z' then Char.ofNat (c.toNat - 32) else c

/-- Case-insensitive literal match at the start of a string; the pattern is
    stored lowercase. -/
def prefCI : Str → Str → Bool
  | [], _ => true
  | _ :: _, [] => false
  | p :: ps, c :: cs => (p == lcChar c) && prefCI ps cs

/-- Case-sensitive literal match at the start of a string. -/
def prefCS : Str → Str → Bool
  | [], _ => true
  | _ :: _, [] => false
  | p :: ps, c :: cs => (p == c) && prefCS ps cs

/-- Case-sensitive substring occurrence test (String.prototype.includes). -/
def subCS (p : Str) : Str → Bool
  | [] => prefCS p []
  | c :: cs => prefCS p (c :: cs) || subCS p cs

/-- The pattern occurs at the start of the string (as a proposition). -/
def PreSeg (p s : Str) : Prop := ∃ t, s = p ++ t

/-- The pattern occurs somewhere inside the string (as a proposition). -/
def SubSeg (p s : Str) : Prop := ∃ u t, s = u ++ p ++ t

/-! ### Generic global-replace driver

`String.prototype.replace` with a global regex: scan the input left to
right; at each position try the match function (which receives the previous
original character, for word-boundary assertions, and the remaining input);
on a match emit the replacement (built from the captured digits) and resume
after the matched portion of the original input; otherwise copy one
character.  All matchers used here consume at least one character, so fuel
equal to the input length suffices. -/

def rsGo (mAt : Option Char → Str → Option (Nat × Str)) (mk : Str → Str) :
    Nat → Option Char → Str → Str
  | 0, _, s => s
  | _ + 1, _, [] => []
  | fuel + 1, pr, c :: cs =>
    match mAt pr (c :: cs) with
    | some (n, cap) =>
        mk cap ++ rsGo mAt mk fuel (((c :: cs).take n).getLast?) ((c :: cs).drop n)
    | none => c :: rsGo mAt mk fuel (some c) cs

def replaceScan (mAt : Option Char → Str → Option (Nat × Str)) (mk : Str → Str)
    (s : Str) : Str :=
  rsGo mAt mk s.length none s

/-- Match function for an ordered alternation of literals (no captures). -/
def altLitsAt (lits : List Str) (_pr : Option Char) (s : Str) : Option (Nat × Str) :=
  match lits.find? (fun l => prefCI l s) with
  | some l => some (l.length, [])
  | none => none

/-- Replace every occurrence of one of the literals (tried in order) by a
    fixed replacement. -/
def replaceLits (lits : List String) (repl : String) (s : Str) : Str :=
  replaceScan (altLitsAt (lits.map strL)) (fun _ => strL repl) s

/-- The portion of a string before the first newline (regex dot scope). -/
def lineOf (s : Str) : Str := s.takeWhile (fun c => c ≠ '\n')

/-- Index of the last case-insensitive occurrence of a literal (greedy
    dot-star backtracking finds the last occurrence). -/
def lastIdxGo (b : Str) : Str → Nat → Option Nat
  | [], i => if prefCI b [] then some i else none
  | c :: cs, i =>
    match lastIdxGo b cs (i + 1) with
    | some j => some j
    | none => if prefCI b (c :: cs) then some i else none

def lastIdx (b t : Str) : Option Nat := lastIdxGo b t 0

/-- Match a literal, then greedy dot-star (not crossing a newline), then a
    second literal, at the start of the string; returns the match length. -/
def seqTailAt (a b : Str) (s : Str) : Option Nat :=
  if prefCI a s then
    match lastIdx b (lineOf (s.drop a.length)) with
    | some j => some (a.length + j + b.length)
    | none => none
  else none

/-! ### Transcript normalizer (processedTranscription, routes.ts 187-191)

Four global case-insensitive substitutions applied in order. -/

/-- Pass 2 matcher: ainurubai, ainuru dot-star bai, ainu dot-star bai,
    alternatives tried in order. -/
def ainuAt (_pr : Option Char) (s : Str) : Option (Nat × Str) :=
  if prefCI (strL "ainurubai") s then some ((strL "ainurubai").length, [])
  else match seqTailAt (strL "ainuru") (strL "bai") s with
  | some n => some (n, [])
  | none =>
    match seqTailAt (strL "ainu") (strL "bai") s with
    | some n => some (n, [])
    | none => none

def normalize (s : Str) : Str :=
  let s1 := replaceLits ["purawai", "buddha way", "budha way"] "pudavai" s
  let s2 := replaceScan ainuAt (fun _ => strL "500 rupai") s1
  let s3 := replaceLits ["in the", "inthe"] "intha" s2
  replaceLits ["way"] "vai" s3

/-! ### Translation post-processor (translatedText, routes.ts 257-265)

Eight global case-insensitive substitutions applied in order.  Pass 2 of
the source reuses the ainuru dot-star bai alternative; passes 6-8 carry
word boundaries, whitespace repetition and a digit capture. -/

/-- Pass 2 matcher of the post-processor:
    rupai, rupee, ainurubai, ainuru dot-star bai, tried in order. -/
def rupAt (_pr : Option Char) (s : Str) : Option (Nat × Str) :=
  match (["rupai", "rupee", "ainurubai"].map strL).find? (fun l => prefCI l s) with
  | some l => some (l.length, [])
  | none =>
    match seqTailAt (strL "ainuru") (strL "bai") s with
    | some n => some (n, [])
    | none => none

/-- Word-boundary test between an optional previous character and the next
    character of the input (true when exactly one side is a word char; the
    matchers below only call it where the inner side is a word char). -/
def noWordBefore (pr : Option Char) : Bool :=
  match pr with
  | none => true
  | some c => !isWordCh c

/-- True when the remaining input starts with a non-word character or ends. -/
def wordEndAt (s : Str) : Bool :=
  match s with
  | [] => true
  | c :: _ => !isWordCh c

/-- Pass 6 matcher: word boundary, captured digits, optional whitespace, one
    of rupai, rupee, rupees (in order) followed by a word boundary. -/
def numRupAt (pr : Option Char) (s : Str) : Option (Nat × Str) :=
  if noWordBefore pr then
    let ds := s.takeWhile isDigitCh
    if ds = [] then none else
    let r1 := s.drop ds.length
    let ws := r1.takeWhile isSpaceCh
    let r2 := r1.drop ws.length
    match (["rupai", "rupee", "rupees"].map strL).find?
        (fun l => prefCI l r2 && wordEndAt (r2.drop l.length)) with
    | some l => some (ds.length + ws.length + l.length, ds)
    | none => none
  else none

/-- Pass 7 matcher: this, whitespace, saree, whitespace, rupees. -/
def thisSareeAt (_pr : Option Char) (s : Str) : Option (Nat × Str) :=
  if prefCI (strL "this") s then
    let r1 := s.drop 4
    let w1 := r1.takeWhile isSpaceCh
    if w1 = [] then none else
    let r2 := r1.drop w1.length
    if prefCI (strL "saree") r2 then
      let r3 := r2.drop 5
      let w2 := r3.takeWhile isSpaceCh
      if w2 = [] then none else
      let r4 := r3.drop w2.length
      if prefCI (strL "rupees") r4 then some (4 + w1.length + 5 + w2.length + 6, [])
      else none
    else none
  else none

/-- Pass 8 matcher: this, whitespace, saree, whitespace, captured digits,
    whitespace, rupees. -/
def thisSareeNumAt (_pr : Option Char) (s : Str) : Option (Nat × Str) :=
  if prefCI (strL "this") s then
    let r1 := s.drop 4
    let w1 := r1.takeWhile isSpaceCh
    if w1 = [] then none else
    let r2 := r1.drop w1.length
    if prefCI (strL "saree") r2 then
      let r3 := r2.drop 5
      let w2 := r3.takeWhile isSpaceCh
      if w2 = [] then none else
      let r4 := r3.drop w2.length
      let ds := r4.takeWhile isDigitCh
      if ds = [] then none else
      let r5 := r4.drop ds.length
      let w3 := r5.takeWhile isSpaceCh
      if w3 = [] then none else
      let r6 := r5.drop w3.length
      if prefCI (strL "rupees") r6 then
        some (4 + w1.length + 5 + w2.length + ds.length + w3.length + 6, ds)
      else none
    else none
  else none

def postProcess (s : Str) : Str :=
  let s1 := replaceLits ["pudavai", "purawai", "buddha way", "budha way"] "saree" s
  let s2 := replaceScan rupAt (fun _ => strL "rupees") s1
  let s3 := replaceLits ["intha", "antha", "in the"] "this" s2
  let s4 := replaceLits ["antha"] "that" s3
  let s5 := replaceLits ["evvalavu", "etthanai"] "how much" s4
  let s6 := replaceScan numRupAt (fun cap => cap ++ strL " rupees") s5
  let s7 := replaceScan thisSareeAt (fun _ => strL "this saree costs rupees") s6
  replaceScan thisSareeNumAt (fun cap => strL "this saree costs " ++ cap ++ strL " rupees") s7

/-! ### Language detection (routes.ts 184-247)

Hand-written per-language regex pattern lists are tested (in the order
Tamil, Hindi, Telugu) against the normalized transcription; the first
language whose pattern list matches wins.  Only when no pattern matches is
the statistical guess of franc consulted, through a fixed code table with
default Tamil.  franc is an external library, so its guess is a parameter.
Tests run on the lowercased text; the literal alternatives of the patterns
are recorded in lowercase (the i flag on caseless Indic script is the
identity). -/

/-- Dot-star sequence test: first literal, then any characters on the same
    line, then the second literal (regex test of ainuru dot-star bai). -/
def seqTest (a b : Str) : Str → Bool
  | [] => false
  | c :: cs =>
    (prefCS a (c :: cs) && subCS b (lineOf ((c :: cs).drop a.length))) || seqTest a b cs

/-- Literal alternatives of the four tamilPatterns regexes. -/
def tamilLits : List Str :=
  ["pudavai", "saree", "வடிவம்", "rupai", "rupee", "intha", "இந்த", "அந்த", "antha",
   "purawai", "buddha way", "budha way", "ainurubai",
   "வருகிறது", "போகிறது", "செய்கிறது", "இருக்கிறது",
   "எவ்வளவு", "எத்தனை", "யாரு", "என்ன", "எங்கே"].map strL

/-- Literal alternatives of the two hindiPatterns regexes. -/
def hindiLits : List Str :=
  ["kya", "hai", "nahi", "hum", "tum", "यह", "वह", "है", "नहीं",
   "rupaye", "paisa", "kitna", "कितना", "रुपये", "पैसा"].map strL

/-- Literal alternatives of the two teluguPatterns regexes. -/
def teluguLits : List Str :=
  ["ela", "enti", "ekkada", "telugu", "తెలుగు", "ఎలా", "ఎంత",
   "rupayalu", "రుపాయలు", "ఇంత", "అంత"].map strL

/-- tamilPatterns.some on the lowercased text. -/
def tamilTest (s : Str) : Bool :=
  tamilLits.any (fun l => subCS l (lcs s)) || seqTest (strL "ainuru") (strL "bai") (lcs s)

/-- hindiPatterns.some on the lowercased text. -/
def hindiTest (s : Str) : Bool := hindiLits.any (fun l => subCS l (lcs s))

/-- teluguPatterns.some on the lowercased text. -/
def teluguTest (s : Str) : Bool := teluguLits.any (fun l => subCS l (lcs s))

/-- The franc-code to internal-code table. -/
def languageMap : List (Str × Str) :=
  [("tam", "ta"), ("tel", "te"), ("hin", "hi"), ("mal", "ml"), ("kan", "kn"),
   ("mar", "mr")].map (fun p => (strL p.1, strL p.2))

/-- Language detection: pattern lists first (Tamil, Hindi, Telugu in that
    order), then the statistical guess through the code table, else the
    default Tamil. -/
def detect (francGuess : Str) (s : Str) : Str :=
  if tamilTest s then strL "ta"
  else if hindiTest s then strL "hi"
  else if teluguTest s then strL "te"
  else
    match (languageMap.find? (fun p => p.1 == francGuess)).map (fun p => p.2) with
    | some c => c
    | none => strL "ta"

/-! ### Pattern-based extraction (extractWithPatterns, routes.ts 353-443) -/

/-- JS split on one-or-more whitespace: pieces between maximal whitespace
    runs, with an empty piece at an end that starts or finishes with
    whitespace.  Fuel equals the input length. -/
def splitWsGo : Nat → Str → Str → List Str
  | 0, cur, _ => [cur.reverse]
  | _ + 1, cur, [] => [cur.reverse]
  | fuel + 1, cur, c :: cs =>
    if isSpaceCh c then cur.reverse :: splitWsGo fuel [] (cs.dropWhile isSpaceCh)
    else splitWsGo fuel (c :: cur) cs

def splitWs (s : Str) : List Str := splitWsGo s.length [] s

/-- Stop-word list of the title extraction. -/
def stopWords : List Str :=
  ["this", "that", "the", "and", "or", "at", "in", "on", "for", "with", "is", "are",
   "costs", "rupees", "rupeess", "dollars", "price", "per", "each", "piece"].map strL

/-- Tokens kept for the title: longer than two characters and not a
    stop word (compared lowercased). -/
def productWords (t : Str) : List Str :=
  (splitWs t).filter (fun w => decide (w.length > 2) && !(stopWords.contains (lcs w)))

/-- Capitalize a leading word character (replace of caret-backslash-w). -/
def ucFirstW : Str → Str
  | [] => []
  | c :: cs => if isWordCh c then ucChar c :: cs else c :: cs

/-- Join tokens with single spaces. -/
def joinSp : List Str → Str
  | [] => []
  | [w] => w
  | w :: ws => w ++ ' ' :: joinSp ws

def extractTitle (t : Str) : Str :=
  if productWords t = [] then strL "Product"
  else ucFirstW (joinSp ((productWords t).take 3))

/-- Greedy consumption of comma groups: comma followed by exactly three
    digits, repeated. -/
def takeGroups : Str → Str × Str
  | ',' :: a :: b :: c :: r =>
    if isDigitCh a && isDigitCh b && isDigitCh c then
      let p := takeGroups r
      (',' :: a :: b :: c :: p.1, p.2)
    else ([], ',' :: a :: b :: c :: r)
  | s => ([], s)

/-- Optional decimal part of the price pattern: dot, exactly two digits. -/
def takeDec : Str → Str × Str
  | '.' :: a :: b :: r =>
    if isDigitCh a && isDigitCh b then (['.', a, b], r) else ([], '.' :: a :: b :: r)
  | s => ([], s)

/-- Currency alternatives of the price regex, in source order. -/
def curLits : List Str := ["rupees", "rupeess", "dollars", "inr", "usd", "₹", "$"].map strL

/-- Price match at the start of the (lowercased) input: digits, optional
    comma groups, optional two-digit decimal, optional whitespace, then a
    currency alternative.  Returns the captured numeric text. -/
def matchPriceAt (s : Str) : Option Str :=
  let ds := s.takeWhile isDigitCh
  if ds = [] then none else
  let p1 := takeGroups (s.dropWhile isDigitCh)
  let p2 := takeDec p1.2
  let r4 := p2.2.dropWhile isSpaceCh
  if curLits.any (fun l => prefCS l r4) then some (ds ++ p1.1 ++ p2.1) else none

/-- Leftmost price match of the whole input (String.prototype.match without
    the global flag). -/
def findPriceCap : Str → Option Str
  | [] => none
  | c :: cs =>
    match matchPriceAt (c :: cs) with
    | some g => some g
    | none => findPriceCap cs

/-- Numeric value of a digit string. -/
def natOfDigits (ds : Str) : Nat := ds.foldl (fun a c => a * 10 + (c.toNat - 48)) 0

/-- parseFloat of the captured text after stripping the thousands commas
    (exact rational value; the integer case is kept division-free). -/
def capToRat (cap : Str) : ℚ :=
  let noC := cap.filter (fun c => c ≠ ',')
  let ip := noC.takeWhile (fun c => c ≠ '.')
  let fp := (noC.dropWhile (fun c => c ≠ '.')).drop 1
  if fp = [] then (natOfDigits ip : ℚ)
  else (natOfDigits ip : ℚ) + (natOfDigits fp : ℚ) / ((10 : ℚ) ^ fp.length)

/-- Extracted price: null when the regex finds no match. -/
def extractPrice (t : Str) : Option ℚ := (findPriceCap (lcs t)).map capToRat

/-- Unit alternatives of the quantity regex, in source order. -/
def qtyUnits : List Str :=
  ["kg", "gram", "grams", "liters", "ml", "pieces", "pcs", "units", "pack", "bottle",
   "jar"].map strL

/-- Quantity match at the start of the (lowercased) input: digits, optional
    dot and digits, optional whitespace, then a unit. -/
def matchQtyAt (s : Str) : Option Str :=
  let ds := s.takeWhile isDigitCh
  if ds = [] then none else
  let r1 := s.dropWhile isDigitCh
  let p :=
    match r1 with
    | '.' :: rest =>
      let fs := rest.takeWhile isDigitCh
      if fs = [] then (([] : Str), r1) else ('.' :: fs, rest.dropWhile isDigitCh)
    | _ => (([] : Str), r1)
  let r3 := p.2.dropWhile isSpaceCh
  if qtyUnits.any (fun l => prefCS l r3) then some (ds ++ p.1) else none

def findQtyCap : Str → Option Str
  | [] => none
  | c :: cs =>
    match matchQtyAt (c :: cs) with
    | some g => some g
    | none => findQtyCap cs

/-- Extracted quantity, with default 1 when the regex finds no match. -/
def extractQuantity (t : Str) : ℚ :=
  match findQtyCap (lcs t) with
  | some cap => capToRat cap
  | none => 1

/-- The ordered category-label to keyword-list table. -/
def ecommerceCategories : List (String × List String) :=
  [("Health & Beauty > Soap", ["soap", "handmade soap", "neem soap", "ayurvedic soap",
      "herbal soap"]),
   ("Health & Beauty > Skincare", ["cream", "lotion", "face wash", "moisturizer",
      "sunscreen"]),
   ("Health & Beauty > Haircare", ["shampoo", "conditioner", "hair oil", "hair mask"]),
   ("Food & Beverages > Spices", ["turmeric", "chili", "coriander", "cumin",
      "garam masala", "spice"]),
   ("Food & Beverages > Oils", ["coconut oil", "mustard oil", "sesame oil",
      "groundnut oil", "ghee"]),
   ("Food & Beverages > Grains", ["rice", "wheat", "dal", "lentils", "quinoa", "oats"]),
   ("Food & Beverages > Vegetables", ["onion", "potato", "tomato", "carrot", "cabbage",
      "spinach"]),
   ("Food & Beverages > Fruits", ["apple", "banana", "mango", "orange", "grape",
      "strawberry"]),
   ("Home & Garden > Furniture", ["chair", "table", "bed", "sofa", "cabinet", "shelf"]),
   ("Home & Garden > Decor", ["lamp", "mirror", "curtain", "vase", "painting",
      "cushion"]),
   ("Clothing & Accessories > Men", ["shirt", "pants", "jeans", "t-shirt", "jacket",
      "kurta"]),
   ("Clothing & Accessories > Women", ["dress", "saree", "blouse", "skirt", "top",
      "lehenga"]),
   ("Electronics > Mobile", ["phone", "smartphone", "mobile", "charger", "headphones"]),
   ("Electronics > Computers", ["laptop", "computer", "tablet", "keyboard", "mouse"]),
   ("Handicrafts > Textiles", ["handwoven", "embroidered", "cotton", "silk", "wool"]),
   ("Handicrafts > Pottery", ["clay", "ceramic", "earthenware", "pottery", "terracotta"]),
   ("Baby & Kids > Toys", ["toy", "doll", "game", "puzzle", "blocks"]),
   ("Sports & Fitness > Equipment", ["yoga mat", "dumbbell", "cricket bat", "football"])]

/-- First category (in table order) one of whose keywords occurs in the
    lowercased text; default General. -/
def findCat : List (String × List String) → Str → Str
  | [], _ => strL "General"
  | (c, kws) :: rest, lower =>
    if kws.any (fun k => subCS (strL k) lower) then strL c else findCat rest lower

def extractCategory (t : Str) : Str := findCat ecommerceCategories (lcs t)

/-- Index of the first case-sensitive occurrence of a pattern. -/
def findSubIdx (p : Str) : Str → Option Nat
  | [] => if prefCS p [] then some 0 else none
  | c :: cs =>
    if prefCS p (c :: cs) then some 0 else (findSubIdx p cs).map (· + 1)

/-- Part of the category label before its separator (split on " > ", index 0). -/
def catBase (c : Str) : Str :=
  match findSubIdx (strL " > ") c with
  | some i => c.take i
  | none => c

/-- Part after the separator, or the base when there is none. -/
def catSub (c : Str) : Str :=
  match findSubIdx (strL " > ") c with
  | some i => c.drop (i + 3)
  | none => catBase c

/-- Digits of a natural number. -/
def natDigits (n : Nat) : Str := Nat.toDigits 10 n

/-- JS template rendering of the parsed price (at most two decimals, and
    trailing zero decimals are not printed). -/
def jsNumStr (q : ℚ) : Str :=
  let n : Nat := (⌊q * 100⌋).toNat
  if n % 100 == 0 then natDigits (n / 100)
  else if n % 10 == 0 then natDigits (n / 100) ++ '.' :: natDigits ((n / 10) % 10)
  else natDigits (n / 100) ++ '.' :: natDigits ((n % 100) / 10) ++ natDigits (n % 10)

/-- The four-branch marketing-description decision tree of the source. -/
def mkDescription (t : Str) (title : Str) (category : Str) (price : Option ℚ) : Str :=
  let lower := lcs t
  if subCS (strL "handmade") lower || subCS (strL "natural") lower
      || subCS (strL "organic") lower then
    strL "Premium handcrafted " ++ lcs title ++ strL " made with natural ingredients. Perfect for daily use"
      ++ (match price with
          | some p => strL " at just ₹" ++ jsNumStr p
          | none => []) ++ strL ". Authentic quality product sourced directly from artisans."
  else if subCS (strL "fresh") lower || subCS (strL "Vegetables") category
      || subCS (strL "Fruits") category then
    strL "Fresh " ++ lcs title ++ strL " directly from farms. High quality, pesticide-free produce"
      ++ (match price with
          | some p => strL " at ₹" ++ jsNumStr p
          | none => []) ++ strL ". Perfect for healthy cooking and nutritious meals."
  else if subCS (strL "Oil") category || subCS (strL "Spices") category then
    strL "Pure " ++ lcs title ++ strL " with authentic taste and aroma. Traditional quality preserved"
      ++ (match price with
          | some p => strL " at ₹" ++ jsNumStr p
          | none => []) ++ strL ". Essential for authentic Indian cooking."
  else
    strL "High-quality " ++ lcs title ++ strL " from trusted sources. Excellent "
      ++ lcs (catSub category)
      ++ strL " item"
      ++ (match price with
          | some p => strL " priced at ₹" ++ jsNumStr p
          | none => []) ++ strL " with reliable performance and durability."

/-- Structured product details produced by extraction. -/
structure ProductDetails where
  title : Str
  description : Str
  category : Str
  price : Option ℚ
  quantity : ℚ
deriving DecidableEq

/-- The non-throwing body of extractWithPatterns. -/
def extractWithPatterns (t : Str) : ProductDetails :=
  let title := extractTitle t
  let category := extractCategory t
  let price := extractPrice t
  { title := title
    description := mkDescription t title category price
    category := category
    price := price
    quantity := extractQuantity t }

/-- Result object of the extraction step.  On success the source returns
    success true with a details object; its catch branch returns success
    false, the fixed error text, and the raw thrown message in the details
    field (the details field is overloaded in the source, hence the two
    optional components here). -/
structure ExtractOutcome where
  success : Bool
  errorMsg : Option Str
  detailsOk : Option ProductDetails
  detailsMsg : Option Str
deriving DecidableEq

/-- extractWithPatterns with its try/catch: a pure model cannot throw, so
    the exceptional outcome is an oracle argument carrying the thrown
    message when the body is assumed to throw. -/
def extractWithPatternsE (exc : Option Str) (t : Str) : ExtractOutcome :=
  match exc with
  | some m => ⟨false, some (strL "Failed to extract details"), none, some m⟩
  | none => ⟨true, none, some (extractWithPatterns t), none⟩

/-- extractDetailsFromText: the LLM collaborator is an oracle; none means
    no API key is configured, an error value means the call threw.  Both
    fall through to the pattern fallback. -/
def extractDetailsFromText (llm : Option (Except Str ProductDetails)) (exc : Option Str)
    (t : Str) : ExtractOutcome :=
  match llm with
  | some (Except.ok d) => ⟨true, none, some d, none⟩
  | some (Except.error _) => extractWithPatternsE exc t
  | none => extractWithPatternsE exc t

/-! ### In-memory product store (MemStorage, Talk2Trade format) -/

/-- Persisted product record (id, the extracted fields, and the
    last-modified timestamp; dates are modelled as naturals). -/
structure Product where
  id : Str
  title : Str
  description : Str
  category : Str
  price : Option ℚ
  quantity : ℚ
  last_updated : Nat
deriving DecidableEq

/-- Partial update object: a field is present or absent (Partial of the
    insert schema, which omits id and the timestamps). -/
structure ProductUpdates where
  title : Option Str := none
  description : Option Str := none
  category : Option Str := none
  price : Option (Option ℚ) := none
  quantity : Option ℚ := none
deriving DecidableEq

/-- Object spread of the existing product with the updates, then the fresh
    last-modified timestamp. -/
def applyUpdates (p : Product) (u : ProductUpdates) (now : Nat) : Product :=
  { id := p.id
    title := u.title.getD p.title
    description := u.description.getD p.description
    category := u.category.getD p.category
    price := u.price.getD p.price
    quantity := u.quantity.getD p.quantity
    last_updated := now }

/-- The product map of MemStorage, modelled extensionally by lookup. -/
def ProductMap := Str → Option Product

/-- MemStorage.updateProduct: returns undefined and leaves the map alone on
    a missing id; otherwise stores and returns the merged product. -/
def updateProduct (m : ProductMap) (now : Nat) (id : Str) (u : ProductUpdates) :
    Option Product × ProductMap :=
  match m id with
  | none => (none, m)
  | some p =>
    let p2 := applyUpdates p u now
    (some p2, fun k => if k = id then some p2 else m k)

/-! ### The translate route (routes.ts 173-309)

External collaborators (franc, the translator, the LLM extractor, the
storage write) are oracle arguments holding their outcome for the run. -/

/-- Successful response body of the translate route. -/
structure TranslateOk where
  detected_language : Str
  translated_text : Str
  original_text : Str
  processed_text : Str
  extracted_details : ExtractOutcome
  product_created : Option Product

/-- Error response of the translate route: message plus the already
    detected language. -/
structure TranslateErr where
  errorText : Str
  detected_language : Str

def translateRoute (francGuess : Str) (translated : Except Str Str)
    (llm : Option (Except Str ProductDetails)) (exc : Option Str)
    (created : Option Product) (transcription : Str) :
    Except TranslateErr TranslateOk :=
  let processed := normalize transcription
  let lang := detect francGuess processed
  match translated with
  | Except.error _ => Except.error ⟨strL "Translation failed. Please try again.", lang⟩
  | Except.ok tr =>
    let tt := postProcess tr
    let ed := extractDetailsFromText llm exc tt
    let pc := if ed.success && ed.detailsOk.isSome then created else none
    Except.ok ⟨lang, tt, transcription, processed, ed, pc⟩

/-! ### Auxiliary definitions for the statements -/

/-- Space-separated join of marker strings: the texts "containing only the
    marker strings of one language" considered by the detection property. -/
def joinM : List Str → Str
  | [] => []
  | [m] => m
  | m :: ms => m ++ ' ' :: joinM ms

/-- Sufficient condition for a literal never occurring inside a join of
    markers drawn from ms: either it has no space and occurs in no marker,
    or some non-space character of it occurs in no marker. -/
def safeLitB (p : Str) (ms : List Str) : Bool :=
  decide (p ≠ []) &&
  ((decide (' ' ∉ p) && ms.all (fun m => !(subCS p m))) ||
   (p.any (fun c => decide (c ≠ ' ') && ms.all (fun m => decide (c ∉ m)))))

/-- The languages with a regex pattern list. -/
inductive SupportedLang
  | ta
  | hi
  | te

/-- Marker strings (pattern literal alternatives) of a supported language. -/
def markersOf : SupportedLang → List Str
  | SupportedLang.ta => tamilLits
  | SupportedLang.hi => hindiLits
  | SupportedLang.te => teluguLits

/-- Internal code of a supported language. -/
def codeOf : SupportedLang → Str
  | SupportedLang.ta => strL "ta"
  | SupportedLang.hi => strL "hi"
  | SupportedLang.te => strL "te"

/-- Exact membership in the number grammar of the spec: digits, optional
    comma-separated three-digit groups, optional two-digit decimals. -/
def NumLitB (n : Str) : Bool :=
  decide (n.takeWhile isDigitCh ≠ []) &&
  decide ((takeDec (takeGroups (n.dropWhile isDigitCh)).2).2 = ([] : Str))

/-- Exact comma-group strings (shape invariant of takeGroups output). -/
def groupsB : Str → Bool
  | [] => true
  | c :: a :: b :: d :: r =>
    (c == ',') && isDigitCh a && isDigitCh b && isDigitCh d && groupsB r
  | _ => false

/-- Spec-side reading of the price property: somewhere in the (lowercased)
    text a number in the grammar is followed, after optional whitespace, by
    a currency keyword. -/
def PriceShape (t : Str) : Prop :=
  ∃ u num ws cur v,
    lcs t = u ++ num ++ ws ++ cur ++ v ∧ NumLitB num = true ∧
    (∀ c ∈ ws, isSpaceCh c = true) ∧ cur ∈ curLits

/-- Sample product for the storage witnesses. -/
def sampleProduct : Product :=
  { id := strL "p1"
    title := strL "Saree"
    description := strL "desc"
    category := strL "General"
    price := some 500
    quantity := 1
    last_updated := 0 }

/-- Sample one-product store. -/
def sampleMap : ProductMap :=
  fun k => if k = strL "p1" then some sampleProduct else none

/-- Sample partial update naming only the title. -/
def sampleUpdates : ProductUpdates := { title := some (strL "Silk Saree") }

/-! ## Infrastructure lemmas on the string matchers -/

theorem prefCS_iff (p : Str) : ∀ s, prefCS p s = true ↔ PreSeg p s := by
  induction p with
  | nil =>
    intro s
    simp only [prefCS, PreSeg, List.nil_append]
    constructor
    · intro _; exact ⟨s, rfl⟩
    · intro _; trivial
  | cons a ps ih =>
    intro s
    cases s with
    | nil =>
      simp only [prefCS, PreSeg]
      constructor
      · intro h; cases h
      · rintro ⟨t, ht⟩; cases ht
    | cons c cs =>
      simp only [prefCS, Bool.and_eq_true, beq_iff_eq, PreSeg]
      rw [ih]
      constructor
      · rintro ⟨rfl, t, rfl⟩; exact ⟨t, rfl⟩
      · rintro ⟨t, ht⟩
        injection ht with h1 h2
        exact ⟨h1.symm, t, h2⟩

theorem SubSeg_of_PreSeg {p s : Str} (h : PreSeg p s) : SubSeg p s := by
  obtain ⟨t, rfl⟩ := h; exact ⟨[], t, rfl⟩

theorem SubSeg_cons_iff (p : Str) (c : Char) (l : Str) :
    SubSeg p (c :: l) ↔ PreSeg p (c :: l) ∨ SubSeg p l := by
  constructor
  · rintro ⟨u, t, h⟩
    cases u with
    | nil => exact Or.inl ⟨t, by simpa using h⟩
    | cons d u' =>
      injection h with h1 h2
      exact Or.inr ⟨u', t, h2⟩
  · rintro (⟨t, h⟩ | ⟨u, t, h⟩)
    · exact ⟨[], t, by simpa using h⟩
    · exact ⟨c :: u, t, by rw [h]; rfl⟩

theorem subCS_iff (p : Str) : ∀ s, subCS p s = true ↔ SubSeg p s := by
  intro s
  induction s with
  | nil =>
    rw [show subCS p [] = prefCS p [] from rfl, prefCS_iff]
    constructor
    · exact SubSeg_of_PreSeg
    · rintro ⟨u, t, h⟩
      have h2 := h.symm
      rw [List.append_eq_nil] at h2
      obtain ⟨h3, _⟩ := h2
      rw [List.append_eq_nil] at h3
      exact ⟨[], by simp [h3.2]⟩
  | cons c cs ih =>
    rw [show subCS p (c :: cs) = (prefCS p (c :: cs) || subCS p cs) from rfl,
      Bool.or_eq_true, prefCS_iff, ih, SubSeg_cons_iff]

theorem joinM_cons2 (a b : Str) (tl : List Str) :
    joinM (a :: b :: tl) = a ++ ' ' :: joinM (b :: tl) := rfl

theorem mem_joinM_SubSeg {m : Str} : ∀ {ms : List Str}, m ∈ ms → SubSeg m (joinM ms) := by
  intro ms
  induction ms with
  | nil => intro h; cases h
  | cons a tl ih =>
    intro h
    cases tl with
    | nil =>
      have hm : m = a := by simpa using h
      subst hm
      exact ⟨[], [], by simp [joinM]⟩
    | cons b tl2 =>
      rcases List.mem_cons.mp h with rfl | h2
      · exact ⟨[], ' ' :: joinM (b :: tl2), by rw [joinM_cons2]; rfl⟩
      · obtain ⟨u, t, hu⟩ := ih h2
        exact ⟨a ++ ' ' :: u, t, by rw [joinM_cons2, hu]; simp⟩

theorem PreSeg_split : ∀ (a p b : Str), PreSeg p (a ++ b) →
    PreSeg p a ∨ ∃ q, p = a ++ q ∧ PreSeg q b := by
  intro a
  induction a with
  | nil => intro p b h; exact Or.inr ⟨p, by simp, by simpa using h⟩
  | cons c a' ih =>
    intro p b h
    cases p with
    | nil => exact Or.inl ⟨c :: a', rfl⟩
    | cons d p' =>
      obtain ⟨t, ht⟩ := h
      injection ht with h1 h2
      rcases ih p' b ⟨t, h2⟩ with hL | ⟨q, hq, hb⟩
      · left
        obtain ⟨t2, ht2⟩ := hL
        exact ⟨t2, by rw [h1, ht2]; rfl⟩
      · right
        exact ⟨q, by rw [h1, hq]; rfl, hb⟩

theorem SubSeg_append_cons_split {p : Str} (hne : p ≠ []) (hsp : ' ' ∉ p) :
    ∀ (a l : Str), SubSeg p (a ++ ' ' :: l) → SubSeg p a ∨ SubSeg p l := by
  intro a
  induction a with
  | nil =>
    intro l h
    simp only [List.nil_append] at h
    rcases (SubSeg_cons_iff p ' ' l).mp h with hpre | hsub
    · obtain ⟨t, ht⟩ := hpre
      cases p with
      | nil => exact absurd rfl hne
      | cons d p' =>
        injection ht with h1 _
        exact absurd (by rw [← h1]; exact List.mem_cons_self _ _) hsp
    · exact Or.inr hsub
  | cons c a' ih =>
    intro l h
    rcases (SubSeg_cons_iff p c (a' ++ ' ' :: l)).mp h with hpre | hsub
    · cases p with
      | nil => exact absurd rfl hne
      | cons d p' =>
        obtain ⟨t, ht⟩ := hpre
        injection ht with h1 h2
        rcases PreSeg_split a' p' (' ' :: l) ⟨t, h2⟩ with hL | ⟨q, hq, hb⟩
        · left
          obtain ⟨t2, ht2⟩ := hL
          exact SubSeg_of_PreSeg ⟨t2, by rw [h1, ht2]; rfl⟩
        · cases q with
          | nil =>
            left
            exact SubSeg_of_PreSeg ⟨[], by rw [h1]; simp at hq; rw [hq]; simp⟩
          | cons e q' =>
            obtain ⟨t3, ht3⟩ := hb
            injection ht3 with h3 _
            exfalso
            apply hsp
            rw [hq, ← h3]
            exact List.mem_cons_of_mem _ (by simp)
    · rcases ih l hsub with h1 | h2
      · exact Or.inl ((SubSeg_cons_iff p c a').mpr (Or.inr h1))
      · exact Or.inr h2

theorem SubSeg_joinM_mem {p : Str} (hne : p ≠ []) (hsp : ' ' ∉ p) :
    ∀ ms, SubSeg p (joinM ms) → ∃ m ∈ ms, SubSeg p m := by
  intro ms
  induction ms with
  | nil =>
    intro h
    obtain ⟨u, t, ht⟩ := h
    exfalso
    apply hne
    have h2 : (u ++ p) ++ t = [] := by rw [← ht]; rfl
    rw [List.append_eq_nil] at h2
    have h3 := h2.1
    rw [List.append_eq_nil] at h3
    exact h3.2
  | cons a tl ih =>
    intro h
    cases tl with
    | nil => exact ⟨a, by simp, h⟩
    | cons b tl2 =>
      rw [joinM_cons2] at h
      rcases SubSeg_append_cons_split hne hsp a (joinM (b :: tl2)) h with h1 | h2
      · exact ⟨a, List.mem_cons_self _ _, h1⟩
      · obtain ⟨m, hm, hs⟩ := ih h2
        exact ⟨m, List.mem_cons_of_mem _ hm, hs⟩

theorem mem_of_SubSeg {c : Char} {p s : Str} (hc : c ∈ p) (h : SubSeg p s) : c ∈ s := by
  obtain ⟨u, t, rfl⟩ := h
  simp [hc]

theorem joinM_chars {c : Char} : ∀ {ms : List Str}, c ∈ joinM ms →
    c = ' ' ∨ ∃ m ∈ ms, c ∈ m := by
  intro ms
  induction ms with
  | nil => intro h; cases h
  | cons a tl ih =>
    intro h
    cases tl with
    | nil => exact Or.inr ⟨a, by simp, h⟩
    | cons b tl2 =>
      rw [joinM_cons2] at h
      rcases List.mem_append.mp h with h1 | h2
      · exact Or.inr ⟨a, by simp, h1⟩
      · rcases List.mem_cons.mp h2 with rfl | h3
        · exact Or.inl rfl
        · rcases ih h3 with h4 | ⟨m, hm, hcm⟩
          · exact Or.inl h4
          · exact Or.inr ⟨m, List.mem_cons_of_mem _ hm, hcm⟩

theorem safeLitB_sound {p : Str} {M : List Str} (h : safeLitB p M = true) :
    ∀ ms, (∀ m ∈ ms, m ∈ M) → ¬ SubSeg p (joinM ms) := by
  intro ms hms hsub
  unfold safeLitB at h
  rw [Bool.and_eq_true, decide_eq_true_iff, Bool.or_eq_true] at h
  obtain ⟨hne, hcase⟩ := h
  rcases hcase with hA | hB
  · rw [Bool.and_eq_true, decide_eq_true_iff, List.all_eq_true] at hA
    obtain ⟨hsp, hall⟩ := hA
    obtain ⟨m, hm, hsm⟩ := SubSeg_joinM_mem hne hsp ms hsub
    have h2 := hall m (hms m hm)
    rw [Bool.not_eq_true'] at h2
    rw [(subCS_iff p m).mpr hsm] at h2
    cases h2
  · rw [List.any_eq_true] at hB
    obtain ⟨c, hcp, hc⟩ := hB
    rw [Bool.and_eq_true, decide_eq_true_iff, List.all_eq_true] at hc
    obtain ⟨hcsp, hcall⟩ := hc
    have hcj := mem_of_SubSeg hcp hsub
    rcases joinM_chars hcj with h1 | ⟨m, hm, hcm⟩
    · exact hcsp h1
    · exact (decide_eq_true_iff.mp (hcall m (hms m hm))) hcm

theorem seqTest_SubSeg {a b : Str} : ∀ s, seqTest a b s = true → SubSeg a s := by
  intro s
  induction s with
  | nil => intro h; cases h
  | cons c cs ih =>
    intro h
    rw [show seqTest a b (c :: cs) =
        ((prefCS a (c :: cs) && subCS b (lineOf ((c :: cs).drop a.length))) || seqTest a b cs)
      from rfl, Bool.or_eq_true, Bool.and_eq_true] at h
    rcases h with ⟨h1, _⟩ | h2
    · exact SubSeg_of_PreSeg ((prefCS_iff a _).mp h1)
    · exact (SubSeg_cons_iff a c cs).mpr (Or.inr (ih h2))

theorem lcs_cons (c : Char) (s : Str) : lcs (c :: s) = lcChar c :: lcs s := rfl

theorem lcs_joinM : ∀ (ms : List Str), (∀ m ∈ ms, lcs m = m) →
    lcs (joinM ms) = joinM ms := by
  intro ms
  induction ms with
  | nil => intro _; rfl
  | cons a tl ih =>
    intro h
    cases tl with
    | nil => exact h a (by simp)
    | cons b tl2 =>
      rw [joinM_cons2]
      show lcs (a ++ ' ' :: joinM (b :: tl2)) = _
      rw [show lcs (a ++ ' ' :: joinM (b :: tl2)) =
        lcs a ++ lcs (' ' :: joinM (b :: tl2)) from List.map_append lcChar _ _]
      rw [lcs_cons, show lcChar ' ' = ' ' by decide, h a (by simp),
        ih (fun m hm => h m (List.mem_cons_of_mem _ hm))]

/-! ## Claim C2: pattern-based language detection overrides the
statistical guess -/

/-- C2: for every supported language with a pattern list (Tamil, Hindi,
    Telugu) and every nonempty space-separated join of the marker strings
    of that language, detect returns the code of that language, whatever the
    statistical (franc) guess is; the Tamil-Hindi-Telugu priority order is
    what the proof of the Hindi and Telugu cases rests on. -/
theorem detect_markers_override (L : SupportedLang) (ms : List Str) (hne : ms ≠ [])
    (hmem : ∀ m ∈ ms, m ∈ markersOf L) (g : Str) :
    detect g (joinM ms) = codeOf L := by
  obtain ⟨m0, hm0⟩ : ∃ m, m ∈ ms := by
    cases ms with
    | nil => exact absurd rfl hne
    | cons x xs => exact ⟨x, by simp⟩
  have hsub0 : SubSeg m0 (joinM ms) := mem_joinM_SubSeg hm0
  cases L with
  | ta =>
    have hlow : lcs (joinM ms) = joinM ms := by
      apply lcs_joinM
      intro m hm
      have hmk : tamilLits.all (fun m => lcs m == m) = true := by decide
      exact eq_of_beq (List.all_eq_true.mp hmk m (hmem m hm))
    have htam : tamilTest (joinM ms) = true := by
      unfold tamilTest
      rw [hlow, Bool.or_eq_true, List.any_eq_true]
      exact Or.inl ⟨m0, hmem m0 hm0, (subCS_iff _ _).mpr hsub0⟩
    simp [detect, htam, codeOf]
  | hi =>
    have hlow : lcs (joinM ms) = joinM ms := by
      apply lcs_joinM
      intro m hm
      have hmk : hindiLits.all (fun m => lcs m == m) = true := by decide
      exact eq_of_beq (List.all_eq_true.mp hmk m (hmem m hm))
    have htam : tamilTest (joinM ms) = false := by
      cases hcl : tamilTest (joinM ms) with
      | false => rfl
      | true =>
        exfalso
        unfold tamilTest at hcl
        rw [hlow, Bool.or_eq_true, List.any_eq_true] at hcl
        rcases hcl with ⟨l, hl, hsl⟩ | hseq
        · have hsafe : tamilLits.all (fun l => safeLitB l hindiLits) = true := by decide
          exact safeLitB_sound (List.all_eq_true.mp hsafe l hl) ms hmem
            ((subCS_iff _ _).mp hsl)
        · have hsafe : safeLitB (strL "ainuru") hindiLits = true := by decide
          exact safeLitB_sound hsafe ms hmem (seqTest_SubSeg _ hseq)
    have hhin : hindiTest (joinM ms) = true := by
      unfold hindiTest
      rw [hlow, List.any_eq_true]
      exact ⟨m0, hmem m0 hm0, (subCS_iff _ _).mpr hsub0⟩
    simp [detect, htam, hhin, codeOf]
  | te =>
    have hlow : lcs (joinM ms) = joinM ms := by
      apply lcs_joinM
      intro m hm
      have hmk : teluguLits.all (fun m => lcs m == m) = true := by decide
      exact eq_of_beq (List.all_eq_true.mp hmk m (hmem m hm))
    have htam : tamilTest (joinM ms) = false := by
      cases hcl : tamilTest (joinM ms) with
      | false => rfl
      | true =>
        exfalso
        unfold tamilTest at hcl
        rw [hlow, Bool.or_eq_true, List.any_eq_true] at hcl
        rcases hcl with ⟨l, hl, hsl⟩ | hseq
        · have hsafe : tamilLits.all (fun l => safeLitB l teluguLits) = true := by decide
          exact safeLitB_sound (List.all_eq_true.mp hsafe l hl) ms hmem
            ((subCS_iff _ _).mp hsl)
        · have hsafe : safeLitB (strL "ainuru") teluguLits = true := by decide
          exact safeLitB_sound hsafe ms hmem (seqTest_SubSeg _ hseq)
    have hhin : hindiTest (joinM ms) = false := by
      cases hcl : hindiTest (joinM ms) with
      | false => rfl
      | true =>
        exfalso
        unfold hindiTest at hcl
        rw [hlow, List.any_eq_true] at hcl
        obtain ⟨l, hl, hsl⟩ := hcl
        have hsafe : hindiLits.all (fun l => safeLitB l teluguLits) = true := by decide
        exact safeLitB_sound (List.all_eq_true.mp hsafe l hl) ms hmem
          ((subCS_iff _ _).mp hsl)
    have htel : teluguTest (joinM ms) = true := by
      unfold teluguTest
      rw [hlow, List.any_eq_true]
      exact ⟨m0, hmem m0 hm0, (subCS_iff _ _).mpr hsub0⟩
    simp [detect, htam, hhin, htel, codeOf]

/-- Witness for C2 at a concrete Hindi input, with an arbitrary franc code
    that would point elsewhere. -/
theorem detect_markers_override_witness :
    detect (strL "eng") (joinM [strL "kya", strL "rupaye"]) = strL "hi" :=
  detect_markers_override SupportedLang.hi [strL "kya", strL "rupaye"] (by decide)
    (by decide) (strL "eng")

/-! ## Claim C1: the end-to-end scenario -/

/-- C1 counterexample: on the mocked translation "saree 500 rupees" the
    post-processor does not leave the text unchanged (its currency pass
    rewrites the inner "rupee" to "rupees", yielding "saree 500 rupeess"),
    and the extracted title is not "Saree 500 Rupees". -/
theorem endToEnd_counterexample :
    postProcess (strL "saree 500 rupees") ≠ strL "saree 500 rupees" ∧
    (extractWithPatterns (postProcess (strL "saree 500 rupees"))).title ≠
      strL "Saree 500 Rupees" := by
  exact ⟨by decide, by decide⟩

/-- C1 amended: normalization and detection behave as claimed; the
    post-processor rewrites the already-canonical "saree 500 rupees" to
    "saree 500 rupeess", and on that text the fallback extractor returns
    title "Saree 500" (the currency token is a stop word, so it is dropped
    from the title), price 500, quantity 1, and category
    "Clothing & Accessories > Women". -/
theorem endToEnd_amended :
    normalize (strL "purawai 500 rupai") = strL "pudavai 500 rupai" ∧
    (∀ g, detect g (strL "pudavai 500 rupai") = strL "ta") ∧
    postProcess (strL "saree 500 rupees") = strL "saree 500 rupeess" ∧
    (extractWithPatterns (strL "saree 500 rupeess")).title = strL "Saree 500" ∧
    (extractWithPatterns (strL "saree 500 rupeess")).price = some 500 ∧
    (extractWithPatterns (strL "saree 500 rupeess")).quantity = 1 ∧
    (extractWithPatterns (strL "saree 500 rupeess")).category =
      strL "Clothing & Accessories > Women" := by
  refine ⟨by decide, ?_, by decide, by decide, by decide, by decide, by decide⟩
  intro g
  have h : tamilTest (strL "pudavai 500 rupai") = true := by decide
  simp [detect, h]

/-! ## Claim C3: idempotence of the normalizer -/

/-- C3 counterexample: normalize is not idempotent.  On "ainurubainu bai"
    the literal alternative ainurubai wins the first pass (ordered
    alternation), leaving "500 rupainu bai", in which the replacement text
    together with the leftover creates a fresh ainu-dot-star-bai match. -/
theorem normalize_not_idempotent :
    normalize (normalize (strL "ainurubainu bai")) ≠
      normalize (strL "ainurubainu bai") := by
  decide

/-- C3 amended: each substitution replacement text is a fixed point of
    normalize, and normalize is idempotent on representative transcripts,
    but not on all inputs: combined with surrounding untouched text a
    replacement can re-match the second substitution pattern. -/
theorem normalize_idempotent_amended :
    normalize (strL "pudavai") = strL "pudavai" ∧
    normalize (strL "500 rupai") = strL "500 rupai" ∧
    normalize (strL "intha") = strL "intha" ∧
    normalize (strL "vai") = strL "vai" ∧
    normalize (normalize (strL "purawai 500 rupai")) =
      normalize (strL "purawai 500 rupai") ∧
    normalize (normalize (strL "buddha way ainurubai in the way")) =
      normalize (strL "buddha way ainurubai in the way") := by
  exact ⟨by decide, by decide, by decide, by decide, by decide, by decide⟩

/-! ## Claim C9: the rupeess artifact and its compensation -/

/-- C9 counterexample: price preservation under post-processing fails for
    a text of the claimed form whose words part carries a digit glued to a
    currency variant: pass 6 inserts a space into "7rupai", and the price
    regex then finds 7 first instead of 500. -/
theorem postProcess_price_counterexample :
    extractPrice (postProcess (strL "7rupai 500 rupees")) ≠
      extractPrice (strL "7rupai 500 rupees") := by
  decide

/-- C9 amended: the post-processor does rewrite canonical "rupees" to
    "rupeess", and the fallback extractor compensates for exactly this
    artifact (the token is in its stop-word list and among its currency
    alternatives); the price-preservation equality holds on representative
    texts of the form words-number-rupees, though not universally. -/
theorem postProcess_price_amended :
    postProcess (strL "saree 500 rupees") = strL "saree 500 rupeess" ∧
    strL "rupeess" ∈ stopWords ∧
    strL "rupeess" ∈ curLits ∧
    extractPrice (postProcess (strL "saree 500 rupees")) =
      extractPrice (strL "saree 500 rupees") ∧
    extractPrice (postProcess (strL "nice saree costs 1500 rupees")) =
      extractPrice (strL "nice saree costs 1500 rupees") ∧
    extractPrice (postProcess (strL "intha pudavai 500 rupees")) =
      extractPrice (strL "intha pudavai 500 rupees") := by
  exact ⟨by decide, by decide, by decide, by decide, by decide, by decide⟩

/-! ## Claim C8: fallback extractor error reporting -/

/-- C8 counterexample: when the fallback extractor throws, the error field
    does not hold the raw message of the thrown error (it holds the fixed text
    "Failed to extract details"; the raw message goes into the details
    field). -/
theorem extract_error_field_counterexample :
    (extractWithPatternsE (some (strL "boom")) (strL "saree")).errorMsg ≠
      some (strL "boom") := by
  decide

/-- C8 amended: exactly when the fallback extractor throws, its result
    carries success false, the fixed error text "Failed to extract
    details", and the raw message of the thrown error in the details field; a
    non-throwing run yields success true with no error field. -/
theorem extract_error_field_amended (m : Str) (t : Str) :
    extractWithPatternsE (some m) t =
      { success := false
        errorMsg := some (strL "Failed to extract details")
        detailsOk := none
        detailsMsg := some m } ∧
    extractWithPatternsE none t =
      { success := true
        errorMsg := none
        detailsOk := some (extractWithPatterns t)
        detailsMsg := none } :=
  ⟨rfl, rfl⟩

/-! ## Claim C5: LLM-extraction failure is isolated -/

/-- C5: when the LLM extractor throws, the route still answers with the
    rule-based fallback result: the response carries populated
    extracted_details whose details come from extractWithPatterns, with
    success true. -/
theorem llm_failure_isolated (g tr e x : Str) (cr : Option Product) :
    translateRoute g (Except.ok tr) (some (Except.error e)) none cr x =
      Except.ok
        { detected_language := detect g (normalize x)
          translated_text := postProcess tr
          original_text := x
          processed_text := normalize x
          extracted_details :=
            { success := true
              errorMsg := none
              detailsOk := some (extractWithPatterns (postProcess tr))
              detailsMsg := none }
          product_created := cr } ∧
    (extractDetailsFromText (some (Except.error e)) none (postProcess tr)).success
      = true ∧
    (extractDetailsFromText (some (Except.error e)) none (postProcess tr)).detailsOk
      = some (extractWithPatterns (postProcess tr)) :=
  ⟨rfl, rfl, rfl⟩

/-! ## Claim C10: updateProduct is a frame-respecting partial update -/

/-- C10: on a missing id updateProduct returns undefined and leaves the map
    unchanged; on a present id, the stored product keeps its id and every
    field not named in the updates, only named fields and the last-modified
    timestamp change, and every other key of the map is untouched. -/
theorem updateProduct_frame (m : ProductMap) (now : Nat) (id : Str) (u : ProductUpdates) :
    (m id = none → updateProduct m now id u = (none, m)) ∧
    (∀ p, m id = some p →
      (updateProduct m now id u).1 = some (applyUpdates p u now) ∧
      (updateProduct m now id u).2 id = some (applyUpdates p u now) ∧
      (applyUpdates p u now).id = p.id ∧
      (u.title = none → (applyUpdates p u now).title = p.title) ∧
      (u.description = none → (applyUpdates p u now).description = p.description) ∧
      (u.category = none → (applyUpdates p u now).category = p.category) ∧
      (u.price = none → (applyUpdates p u now).price = p.price) ∧
      (u.quantity = none → (applyUpdates p u now).quantity = p.quantity) ∧
      (applyUpdates p u now).last_updated = now ∧
      (∀ k, k ≠ id → (updateProduct m now id u).2 k = m k)) := by
  constructor
  · intro h
    simp [updateProduct, h]
  · intro p hp
    refine ⟨?_, ?_, rfl, ?_, ?_, ?_, ?_, ?_, rfl, ?_⟩
    · simp [updateProduct, hp]
    · simp [updateProduct, hp]
    · intro h; simp [applyUpdates, h]
    · intro h; simp [applyUpdates, h]
    · intro h; simp [applyUpdates, h]
    · intro h; simp [applyUpdates, h]
    · intro h; simp [applyUpdates, h]
    · intro k hk
      simp [updateProduct, hp, hk]

/-- Witness for C10 at a concrete store: absent id leaves the map alone;
    present id leaves other keys and unnamed fields unchanged. -/
theorem updateProduct_frame_witness :
    updateProduct sampleMap 7 (strL "zz") sampleUpdates = (none, sampleMap) ∧
    (updateProduct sampleMap 7 (strL "p1") sampleUpdates).2 (strL "p2") =
      sampleMap (strL "p2") ∧
    (applyUpdates sampleProduct sampleUpdates 7).category = sampleProduct.category := by
  refine ⟨?_, ?_, ?_⟩
  · exact (updateProduct_frame sampleMap 7 (strL "zz") sampleUpdates).1 (by decide)
  · exact ((updateProduct_frame sampleMap 7 (strL "p1") sampleUpdates).2 sampleProduct
      (by decide)).2.2.2.2.2.2.2.2.2 (strL "p2") (by decide)
  · exact ((updateProduct_frame sampleMap 7 (strL "p1") sampleUpdates).2 sampleProduct
      (by decide)).2.2.2.2.2.1 rfl

/-! ## Claim C6: fallback title extraction -/

theorem joinSp_cons_ne_nil (w : Str) (ws : List Str) (h : w ≠ []) :
    joinSp (w :: ws) ≠ [] := by
  cases ws with
  | nil => exact h
  | cons b tl =>
    show w ++ ' ' :: joinSp (b :: tl) ≠ []
    simp

theorem ucFirstW_ne_nil {s : Str} (h : s ≠ []) : ucFirstW s ≠ [] := by
  cases s with
  | nil => exact absurd rfl h
  | cons c cs =>
    show (if isWordCh c then ucChar c :: cs else c :: cs) ≠ []
    split <;> simp

theorem productWords_long {t w : Str} (h : w ∈ productWords t) : 2 < w.length := by
  unfold productWords at h
  have h2 := (List.mem_filter.mp h).2
  rw [Bool.and_eq_true] at h2
  exact of_decide_eq_true h2.1

/-- C6: the title is the capitalized join of the first three kept tokens
    (tokens longer than two characters and outside the stop-word list), the
    fixed placeholder "Product" when no token qualifies, and in particular
    never empty. -/
theorem fallback_title_never_empty :
    (∀ t, extractTitle t =
        (if productWords t = [] then strL "Product"
         else ucFirstW (joinSp ((productWords t).take 3))) ∧
      extractTitle t ≠ []) ∧
    extractTitle (strL "is the and or") = strL "Product" := by
  refine ⟨?_, by decide⟩
  intro t
  refine ⟨rfl, ?_⟩
  unfold extractTitle
  split
  · decide
  · rename_i h
    cases hw : productWords t with
    | nil => exact absurd hw h
    | cons w ws =>
      rw [show List.take 3 (w :: ws) = w :: List.take 2 ws from rfl]
      apply ucFirstW_ne_nil
      apply joinSp_cons_ne_nil
      have hlong := productWords_long (t := t) (w := w) (by rw [hw]; simp)
      intro hnil
      rw [hnil] at hlong
      simp at hlong

/-! ## Claim C7: fallback category mapping -/

theorem findCat_cons (c : String) (kws : List String) (tl : List (String × List String))
    (lower : Str) :
    findCat ((c, kws) :: tl) lower =
      if kws.any (fun k => subCS (strL k) lower) then strL c else findCat tl lower := rfl

theorem findCat_mem : ∀ (cats : List (String × List String)) (lower : Str),
    findCat cats lower = strL "General" ∨
      findCat cats lower ∈ cats.map (fun p => strL p.1) := by
  intro cats
  induction cats with
  | nil => intro lower; exact Or.inl rfl
  | cons a tl ih =>
    intro lower
    obtain ⟨c, kws⟩ := a
    rw [findCat_cons]
    split
    · exact Or.inr (List.mem_map_of_mem _ (List.mem_cons_self _ _))
    · rcases ih lower with h | h
      · exact Or.inl h
      · right
        rw [List.map_cons]
        exact List.mem_cons_of_mem _ h

/-- C7: the category only depends on the lowercased text (so it is
    independent of the input casing), it is always either a taxonomy label
    of the table or the default "General", and the two sample casings of
    the turmeric text both map to the spices label. -/
theorem category_casing_independent :
    (∀ s t, lcs s = lcs t → extractCategory s = extractCategory t) ∧
    (∀ r, extractCategory r = strL "General" ∨
      extractCategory r ∈ ecommerceCategories.map (fun p => strL p.1)) ∧
    extractCategory (strL "Fresh ORGANIC Turmeric") = strL "Food & Beverages > Spices" ∧
    extractCategory (strL "fresh organic turmeric") = strL "Food & Beverages > Spices" := by
  refine ⟨?_, ?_, by decide, by decide⟩
  · intro s t h
    unfold extractCategory
    rw [h]
  · intro r
    exact findCat_mem ecommerceCategories (lcs r)

/-- Witness for C7: the two concrete casings of the sample text get the
    same category. -/
theorem category_casing_witness :
    extractCategory (strL "Fresh ORGANIC Turmeric") =
      extractCategory (strL "fresh organic turmeric") :=
  category_casing_independent.1 (strL "Fresh ORGANIC Turmeric")
    (strL "fresh organic turmeric") (by decide)

/-! ## Claim C4: price extraction, matcher infrastructure -/

theorem mem_takeWhile_pred (p : Char → Bool) : ∀ (l : Str) (c : Char),
    c ∈ l.takeWhile p → p c = true := by
  intro l
  induction l with
  | nil => intro c h; cases h
  | cons a as ih =>
    intro c h
    rw [List.takeWhile_cons] at h
    by_cases hp : p a = true
    · rw [if_pos hp] at h
      rcases List.mem_cons.mp h with rfl | h2
      · exact hp
      · exact ih c h2
    · rw [if_neg hp] at h
      cases h

theorem takeWhile_append_boundary (p : Char → Bool) : ∀ (a b : Str),
    (∀ c ∈ a, p c = true) → (∀ c, b.head? = some c → p c = false) →
    (a ++ b).takeWhile p = a ∧ (a ++ b).dropWhile p = b := by
  intro a
  induction a with
  | nil =>
    intro b _ hb
    cases b with
    | nil => exact ⟨rfl, rfl⟩
    | cons c r =>
      have hc := hb c rfl
      constructor
      · rw [List.nil_append, List.takeWhile_cons, if_neg (by simp [hc])]
      · rw [List.nil_append, List.dropWhile_cons, if_neg (by simp [hc])]
  | cons x a' ih =>
    intro b ha hb
    have hx : p x = true := ha x (by simp)
    obtain ⟨ih1, ih2⟩ := ih b (fun c hc => ha c (List.mem_cons_of_mem _ hc)) hb
    constructor
    · rw [List.cons_append, List.takeWhile_cons, if_pos hx, ih1]
    · rw [List.cons_append, List.dropWhile_cons, if_pos hx, ih2]

theorem takeGroups_cons4_pos (a b c : Char) (r : Str)
    (h : (isDigitCh a && isDigitCh b && isDigitCh c) = true) :
    takeGroups (',' :: a :: b :: c :: r) =
      (',' :: a :: b :: c :: (takeGroups r).1, (takeGroups r).2) := by
  rw [takeGroups.eq_def]
  simp [h]

theorem takeGroups_other (s : Str)
    (h : ∀ (a b c : Char) (r : Str), s ≠ ',' :: a :: b :: c :: r) :
    takeGroups s = ([], s) := by
  rw [takeGroups.eq_def]
  split
  · rename_i a b c r
    exact absurd rfl (h a b c r)
  · rfl

theorem takeGroups_not_comma {s : Str} (h : s.head? ≠ some ',') :
    takeGroups s = ([], s) :=
  takeGroups_other s (fun a b c r he => h (by rw [he]; rfl))

theorem takeGroups_eq (s : Str) : (takeGroups s).1 ++ (takeGroups s).2 = s := by
  induction s using takeGroups.induct with
  | case1 a b c r h ih =>
    rw [takeGroups_cons4_pos a b c r h]
    simpa using ih
  | case2 a b c r h =>
    rw [takeGroups.eq_def]
    simp [h]
  | case3 s h =>
    rw [takeGroups_other s (fun a b c r he => h a b c r he)]
    rfl

theorem takeGroups_groupsB (s : Str) : groupsB (takeGroups s).1 = true := by
  induction s using takeGroups.induct with
  | case1 a b c r h ih =>
    rw [takeGroups_cons4_pos a b c r h]
    show groupsB (',' :: a :: b :: c :: (takeGroups r).1) = true
    show ((',' == ',') && isDigitCh a && isDigitCh b && isDigitCh c &&
      groupsB (takeGroups r).1) = true
    rw [Bool.and_eq_true, Bool.and_eq_true, Bool.and_eq_true, Bool.and_eq_true] at *
    rcases h with ⟨⟨ha, hb⟩, hc⟩
    exact ⟨⟨⟨⟨rfl, ha⟩, hb⟩, hc⟩, ih⟩
  | case2 a b c r h =>
    rw [takeGroups.eq_def]
    simp [h, groupsB]
  | case3 s h =>
    rw [takeGroups_other s (fun a b c r he => h a b c r he)]
    rfl

theorem groupsB_head {gs : Str} (h : groupsB gs = true) :
    gs = [] ∨ ∃ r, gs = ',' :: r := by
  match gs with
  | [] => exact Or.inl rfl
  | [c] => simp [groupsB] at h
  | [c, x] => simp [groupsB] at h
  | [c, x, y] => simp [groupsB] at h
  | c :: x :: y :: z :: r =>
    right
    have h2 : (c == ',') = true := by
      rw [show groupsB (c :: x :: y :: z :: r) =
        ((c == ',') && isDigitCh x && isDigitCh y && isDigitCh z && groupsB r) from rfl] at h
      rw [Bool.and_eq_true, Bool.and_eq_true, Bool.and_eq_true, Bool.and_eq_true] at h
      exact h.1.1.1.1
    exact ⟨x :: y :: z :: r, by rw [eq_of_beq h2]⟩

theorem takeGroups_of_groups : ∀ (a b : Str), groupsB a = true → b.head? ≠ some ',' →
    takeGroups (a ++ b) = (a, b) := by
  intro a
  induction a using groupsB.induct with
  | case1 =>
    intro b _ hb
    rw [List.nil_append]
    exact takeGroups_not_comma hb
  | case2 c x y z r ih =>
    intro b hg hb
    rw [show groupsB (c :: x :: y :: z :: r) =
      ((c == ',') && isDigitCh x && isDigitCh y && isDigitCh z && groupsB r) from rfl] at hg
    rw [Bool.and_eq_true, Bool.and_eq_true, Bool.and_eq_true, Bool.and_eq_true] at hg
    obtain ⟨⟨⟨⟨hc, hx⟩, hy⟩, hz⟩, hr⟩ := hg
    have hceq : c = ',' := eq_of_beq hc
    subst hceq
    rw [show (',' :: x :: y :: z :: r) ++ b = ',' :: x :: y :: z :: (r ++ b) from rfl]
    rw [takeGroups_cons4_pos x y z (r ++ b) (by rw [hx, hy, hz]; rfl)]
    rw [ih b hr hb]
  | case3 s h1 h2 =>
    intro b hg hb
    exfalso
    rcases s with _ | ⟨c, _ | ⟨x, _ | ⟨y, _ | ⟨z, r⟩⟩⟩⟩
    · exact h1 rfl
    · simp [groupsB] at hg
    · simp [groupsB] at hg
    · simp [groupsB] at hg
    · exact h2 c x y z r rfl

theorem takeDec_eq (s : Str) : (takeDec s).1 ++ (takeDec s).2 = s := by
  rw [takeDec.eq_def]
  split
  · split
    · rfl
    · rfl
  · rfl

theorem takeDec_shape (s : Str) : (takeDec s).1 = [] ∨
    ∃ a b, (takeDec s).1 = ['.', a, b] ∧ isDigitCh a = true ∧ isDigitCh b = true := by
  rw [takeDec.eq_def]
  split
  · rename_i a b r
    split
    · rename_i hab
      rw [Bool.and_eq_true] at hab
      exact Or.inr ⟨a, b, rfl, hab.1, hab.2⟩
    · exact Or.inl rfl
  · exact Or.inl rfl

theorem takeDec_not_dot {s : Str} (h : s.head? ≠ some '.') : takeDec s = ([], s) := by
  rw [takeDec.eq_def]
  split
  · rename_i a b r
    exact absurd (show (('.' :: a :: b :: r) : Str).head? = some '.' from rfl) h
  · rfl

theorem takeDec_dot (a b : Char) (r : Str) (ha : isDigitCh a = true)
    (hb : isDigitCh b = true) : takeDec ('.' :: a :: b :: r) = (['.', a, b], r) := by
  rw [takeDec.eq_def]
  simp [ha, hb]

theorem space_char {c : Char} (h : isSpaceCh c = true) :
    isDigitCh c = false ∧ c ≠ ',' ∧ c ≠ '.' := by
  rw [show isSpaceCh c = ((c == ' ') || (c == '\t') || (c == '\n') || (c == '\r') ||
    (c == '\x0b') || (c == '\x0c')) from rfl] at h
  simp only [Bool.or_eq_true, beq_iff_eq] at h
  rcases h with ((((rfl | rfl) | rfl) | rfl) | rfl) | rfl <;> exact ⟨by decide, by decide, by decide⟩

theorem curLits_head : ∀ l ∈ curLits, ∃ c r, l = c :: r ∧ isDigitCh c = false ∧
    isSpaceCh c = false ∧ c ≠ ',' ∧ c ≠ '.' := by
  intro l hl
  fin_cases hl <;> exact ⟨_, _, rfl, by decide, by decide, by decide, by decide⟩

theorem prefCS_self_append (p v : Str) : prefCS p (p ++ v) = true := by
  induction p with
  | nil => rfl
  | cons c cs ih =>
    show ((c == c) && prefCS cs (cs ++ v)) = true
    simp [ih]

/-- Head character of the whitespace-currency tail: a space character or
    the head of a currency literal. -/
theorem head_ws_cur {ws cur v : Str} (hws : ∀ c ∈ ws, isSpaceCh c = true)
    (hcur : ∃ c r, cur = c :: r ∧ isDigitCh c = false ∧ isSpaceCh c = false ∧
      c ≠ ',' ∧ c ≠ '.') :
    ∀ c, (ws ++ (cur ++ v)).head? = some c →
      isDigitCh c = false ∧ c ≠ ',' ∧ c ≠ '.' := by
  intro c hc
  cases ws with
  | nil =>
    obtain ⟨c0, r0, rfl, h1, _, h3, h4⟩ := hcur
    rw [List.nil_append, List.cons_append] at hc
    injection hc with hc2
    rw [← hc2]
    exact ⟨h1, h3, h4⟩
  | cons w wr =>
    rw [List.cons_append] at hc
    injection hc with hc2
    rw [← hc2]
    exact space_char (hws w (by simp))

/-- Head character of the decimal-whitespace-currency tail. -/
theorem head_dec_ws_cur {dec ws cur v : Str}
    (hdec : dec = [] ∨ ∃ a b, dec = ['.', a, b] ∧ isDigitCh a = true ∧ isDigitCh b = true)
    (hws : ∀ c ∈ ws, isSpaceCh c = true)
    (hcur : ∃ c r, cur = c :: r ∧ isDigitCh c = false ∧ isSpaceCh c = false ∧
      c ≠ ',' ∧ c ≠ '.') :
    ∀ c, (dec ++ (ws ++ (cur ++ v))).head? = some c →
      isDigitCh c = false ∧ c ≠ ',' := by
  intro c hc
  rcases hdec with rfl | ⟨a, b, rfl, _, _⟩
  · rw [List.nil_append] at hc
    obtain ⟨h1, h2, _⟩ := head_ws_cur hws hcur c hc
    exact ⟨h1, h2⟩
  · rw [List.cons_append] at hc
    injection hc with hc2
    rw [← hc2]
    exact ⟨by decide, by decide⟩

/-- Head character of the whole tail after the leading digits. -/
theorem head_gs_tail {gs dec ws cur v : Str}
    (hgh : gs = [] ∨ ∃ r, gs = ',' :: r)
    (hdec : dec = [] ∨ ∃ a b, dec = ['.', a, b] ∧ isDigitCh a = true ∧ isDigitCh b = true)
    (hws : ∀ c ∈ ws, isSpaceCh c = true)
    (hcur : ∃ c r, cur = c :: r ∧ isDigitCh c = false ∧ isSpaceCh c = false ∧
      c ≠ ',' ∧ c ≠ '.') :
    ∀ c, (gs ++ (dec ++ (ws ++ (cur ++ v)))).head? = some c → isDigitCh c = false := by
  intro c hc
  rcases hgh with rfl | ⟨r, rfl⟩
  · rw [List.nil_append] at hc
    exact (head_dec_ws_cur hdec hws hcur c hc).1
  · rw [List.cons_append] at hc
    injection hc with hc2
    rw [← hc2]
    decide

/-- Building the number grammar from the parsed components. -/
theorem NumLitB_build {ds gs dec : Str} (hde : ds ≠ [])
    (hdd : ∀ c ∈ ds, isDigitCh c = true)
    (hgB : groupsB gs = true)
    (hdec : dec = [] ∨ ∃ a b, dec = ['.', a, b] ∧ isDigitCh a = true ∧ isDigitCh b = true) :
    NumLitB ((ds ++ gs) ++ dec) = true := by
  have hbd : ∀ c, (gs ++ dec).head? = some c → isDigitCh c = false := by
    intro c hc
    rcases groupsB_head hgB with rfl | ⟨r, rfl⟩
    · rw [List.nil_append] at hc
      rcases hdec with rfl | ⟨a, b, rfl, _, _⟩
      · cases hc
      · injection hc with hc2
        rw [← hc2]
        decide
    · rw [List.cons_append] at hc
      injection hc with hc2
      rw [← hc2]
      decide
  have h1 := takeWhile_append_boundary isDigitCh ds (gs ++ dec) hdd hbd
  have hb2 : (dec).head? ≠ some ',' := by
    rcases hdec with rfl | ⟨a, b, rfl, _, _⟩
    · intro hc; cases hc
    · intro hc; injection hc with hc2; cases hc2
  have h2 : takeGroups (gs ++ dec) = (gs, dec) := takeGroups_of_groups gs dec hgB hb2
  have h3 : takeDec dec = (dec, []) := by
    rcases hdec with rfl | ⟨a, b, rfl, ha, hb3⟩
    · rfl
    · exact takeDec_dot a b [] ha hb3
  unfold NumLitB
  rw [List.append_assoc, h1.1, h1.2, h2, h3]
  simp [hde]

/-- Decomposing a member of the number grammar into its components. -/
theorem NumLitB_destruct {num : Str} (h : NumLitB num = true) :
    ∃ ds gs dec, num = (ds ++ gs) ++ dec ∧ ds ≠ [] ∧
      (∀ c ∈ ds, isDigitCh c = true) ∧ groupsB gs = true ∧
      (dec = [] ∨ ∃ a b, dec = ['.', a, b] ∧ isDigitCh a = true ∧ isDigitCh b = true) := by
  unfold NumLitB at h
  rw [Bool.and_eq_true, decide_eq_true_iff, decide_eq_true_iff] at h
  obtain ⟨hde, hre⟩ := h
  refine ⟨num.takeWhile isDigitCh, (takeGroups (num.dropWhile isDigitCh)).1,
    (takeDec (takeGroups (num.dropWhile isDigitCh)).2).1, ?_, hde,
    fun c hc => mem_takeWhile_pred isDigitCh num c hc,
    takeGroups_groupsB _, takeDec_shape _⟩
  have e1 : num.takeWhile isDigitCh ++ num.dropWhile isDigitCh = num :=
    List.takeWhile_append_dropWhile isDigitCh num
  have e2 := takeGroups_eq (num.dropWhile isDigitCh)
  have e3 := takeDec_eq (takeGroups (num.dropWhile isDigitCh)).2
  rw [hre, List.append_nil] at e3
  rw [List.append_assoc, e3, e2, e1]

/-- The price matcher succeeds, with the numeric text as the capture, on a
    string that starts with a grammar number, whitespace, and a currency
    alternative. -/
theorem matchPriceAt_shape {ds gs dec ws cur v : Str} (hde : ds ≠ [])
    (hdd : ∀ c ∈ ds, isDigitCh c = true) (hgB : groupsB gs = true)
    (hdec : dec = [] ∨ ∃ a b, dec = ['.', a, b] ∧ isDigitCh a = true ∧ isDigitCh b = true)
    (hws : ∀ c ∈ ws, isSpaceCh c = true) (hcur : cur ∈ curLits) :
    matchPriceAt (ds ++ (gs ++ (dec ++ (ws ++ (cur ++ v))))) =
      some ((ds ++ gs) ++ dec) := by
  obtain ⟨c0, r0, hc0, hc0d, hc0s, hc0c, hc0dot⟩ := curLits_head cur hcur
  have hcur0 : ∃ c r, cur = c :: r ∧ isDigitCh c = false ∧ isSpaceCh c = false ∧
      c ≠ ',' ∧ c ≠ '.' := ⟨c0, r0, hc0, hc0d, hc0s, hc0c, hc0dot⟩
  have hTW := takeWhile_append_boundary isDigitCh ds (gs ++ (dec ++ (ws ++ (cur ++ v))))
    hdd (head_gs_tail (groupsB_head hgB) hdec hws hcur0)
  have hTG : takeGroups (gs ++ (dec ++ (ws ++ (cur ++ v)))) =
      (gs, dec ++ (ws ++ (cur ++ v))) := by
    apply takeGroups_of_groups gs _ hgB
    intro hc
    exact (head_dec_ws_cur hdec hws hcur0 ',' hc).2 rfl
  have hTD : takeDec (dec ++ (ws ++ (cur ++ v))) = (dec, ws ++ (cur ++ v)) := by
    rcases hdec with rfl | ⟨a, b, rfl, ha, hb⟩
    · rw [List.nil_append]
      apply takeDec_not_dot
      intro hc
      exact (head_ws_cur hws hcur0 '.' hc).2.2 rfl
    · rw [show (['.', a, b] : Str) ++ (ws ++ (cur ++ v)) =
        '.' :: a :: b :: (ws ++ (cur ++ v)) from rfl]
      exact takeDec_dot a b _ ha hb
  have hDW : (ws ++ (cur ++ v)).dropWhile isSpaceCh = cur ++ v := by
    refine (takeWhile_append_boundary isSpaceCh ws (cur ++ v) hws ?_).2
    intro c hc
    obtain ⟨c1, r1, rfl, _, h2, _, _⟩ := hcur0
    rw [List.cons_append] at hc
    injection hc with hc2
    rw [← hc2]
    exact h2
  have hANY : (curLits.any fun l => prefCS l (cur ++ v)) = true := by
    rw [List.any_eq_true]
    exact ⟨cur, hcur, prefCS_self_append cur v⟩
  simp only [matchPriceAt]
  rw [hTW.1, hTW.2, hTG]
  rw [if_neg hde]
  simp only
  rw [hTD]
  simp only
  rw [hDW, if_pos hANY, List.append_assoc]

/-- Conversely a successful price match decomposes the input. -/
theorem matchPriceAt_some {s g : Str} (h : matchPriceAt s = some g) :
    ∃ num ws cur v, s = ((num ++ ws) ++ cur) ++ v ∧ NumLitB num = true ∧
      (∀ c ∈ ws, isSpaceCh c = true) ∧ cur ∈ curLits ∧ g = num := by
  simp only [matchPriceAt] at h
  by_cases hde : s.takeWhile isDigitCh = []
  · rw [if_pos hde] at h; cases h
  · rw [if_neg hde] at h
    by_cases hany : (curLits.any fun l =>
        prefCS l (((takeDec (takeGroups (s.dropWhile isDigitCh)).2).2).dropWhile
          isSpaceCh)) = true
    · rw [if_pos hany] at h
      injection h with hg
      obtain ⟨cur, hcurmem, hcurpre⟩ := List.any_eq_true.mp hany
      obtain ⟨v, hv⟩ := (prefCS_iff cur _).mp hcurpre
      refine ⟨s.takeWhile isDigitCh ++ (takeGroups (s.dropWhile isDigitCh)).1 ++
        (takeDec (takeGroups (s.dropWhile isDigitCh)).2).1,
        ((takeDec (takeGroups (s.dropWhile isDigitCh)).2).2).takeWhile isSpaceCh,
        cur, v, ?_, ?_, ?_, hcurmem, hg.symm⟩
      · have e1 : s.takeWhile isDigitCh ++ s.dropWhile isDigitCh = s :=
          List.takeWhile_append_dropWhile isDigitCh s
        have e2 := takeGroups_eq (s.dropWhile isDigitCh)
        have e3 := takeDec_eq (takeGroups (s.dropWhile isDigitCh)).2
        have e4 : (((takeDec (takeGroups (s.dropWhile isDigitCh)).2).2).takeWhile
            isSpaceCh) ++ (((takeDec (takeGroups (s.dropWhile isDigitCh)).2).2).dropWhile
            isSpaceCh) = (takeDec (takeGroups (s.dropWhile isDigitCh)).2).2 :=
          List.takeWhile_append_dropWhile isSpaceCh _
        conv_lhs => rw [← e1, ← e2, ← e3, ← e4, hv]
        simp [List.append_assoc]
      · exact NumLitB_build hde (fun c hc => mem_takeWhile_pred isDigitCh s c hc)
          (takeGroups_groupsB _) (takeDec_shape _)
      · exact fun c hc => mem_takeWhile_pred isSpaceCh _ c hc
    · rw [if_neg hany] at h; cases h

theorem findPriceCap_split : ∀ (s g : Str), findPriceCap s = some g →
    ∃ u r, s = u ++ r ∧ matchPriceAt r = some g := by
  intro s
  induction s with
  | nil => intro g h; cases h
  | cons c cs ih =>
    intro g h
    rw [show findPriceCap (c :: cs) = (match matchPriceAt (c :: cs) with
      | some g => some g
      | none => findPriceCap cs) from rfl] at h
    cases hm : matchPriceAt (c :: cs) with
    | some g2 =>
      rw [hm] at h
      injection h with h2
      exact ⟨[], c :: cs, rfl, by rw [hm, h2]⟩
    | none =>
      rw [hm] at h
      obtain ⟨u, r, hr, hmt⟩ := ih g h
      exact ⟨c :: u, r, by rw [hr]; rfl, hmt⟩

theorem findPriceCap_isSome : ∀ (u r : Str), (matchPriceAt r).isSome = true →
    (findPriceCap (u ++ r)).isSome = true := by
  intro u
  induction u with
  | nil =>
    intro r h
    cases r with
    | nil => simp [matchPriceAt] at h
    | cons c cs =>
      rw [List.nil_append,
        show findPriceCap (c :: cs) = (match matchPriceAt (c :: cs) with
          | some g => some g
          | none => findPriceCap cs) from rfl]
      cases hm : matchPriceAt (c :: cs) with
      | some g => rfl
      | none => rw [hm] at h; cases h
  | cons c u' ih =>
    intro r h
    rw [List.cons_append,
      show findPriceCap (c :: (u' ++ r)) = (match matchPriceAt (c :: (u' ++ r)) with
        | some g => some g
        | none => findPriceCap (u' ++ r)) from rfl]
    cases hm : matchPriceAt (c :: (u' ++ r)) with
    | some g => rfl
    | none => exact ih r h

/-- C4: for every text, the extracted price is non-null exactly when the
    lowercased text contains a grammar number followed (after optional
    whitespace) by a currency keyword; concrete values: the sample with a
    currency gives 500, the sample without gives null (never zero). -/
theorem price_null_iff_no_match :
    (∀ t, ((extractPrice t).isSome = true ↔ PriceShape t)) ∧
    extractPrice (strL "this saree costs 500 rupees") = some 500 ∧
    extractPrice (strL "a nice saree") = none := by
  refine ⟨?_, by decide, by decide⟩
  intro t
  constructor
  · intro h
    rw [show extractPrice t = (findPriceCap (lcs t)).map capToRat from rfl] at h
    have h2 : (findPriceCap (lcs t)).isSome = true := by
      cases hf : findPriceCap (lcs t) with
      | none => rw [hf] at h; cases h
      | some g => rfl
    obtain ⟨g, hg⟩ := Option.isSome_iff_exists.mp h2
    obtain ⟨u, r, hur, hm⟩ := findPriceCap_split (lcs t) g hg
    obtain ⟨num, ws, cur, v, hr, hnum, hws, hcur, _⟩ := matchPriceAt_some hm
    refine ⟨u, num, ws, cur, v, ?_, hnum, hws, hcur⟩
    rw [hur, hr]
    simp [List.append_assoc]
  · rintro ⟨u, num, ws, cur, v, hdecomp, hnum, hws, hcur⟩
    rw [show extractPrice t = (findPriceCap (lcs t)).map capToRat from rfl]
    have h3 : ((findPriceCap (lcs t)).map capToRat).isSome = (findPriceCap (lcs t)).isSome := by
      cases findPriceCap (lcs t) <;> rfl
    rw [h3]
    obtain ⟨ds, gs, dec, hnum_eq, hde, hdd, hgB, hdec⟩ := NumLitB_destruct hnum
    have hmatch := matchPriceAt_shape (v := v) hde hdd hgB hdec hws hcur
    have hsplit : lcs t = u ++ (ds ++ (gs ++ (dec ++ (ws ++ (cur ++ v))))) := by
      rw [hdecomp, hnum_eq]
      simp [List.append_assoc]
    rw [hsplit]
    apply findPriceCap_isSome
    rw [hmatch]
    rfl

end Talk2Trade
